import Mathlib

/-!
Shallow embedding of the tower firmware core (ring buffer, packet framer,
flash storage engine) and proofs about it.

Sources embedded:
* `FIFO.c`   — `TFIFO`, `FIFO_Init`, `FIFO_Put`, `FIFO_Get`
* `packet.c` — packet assembly state machine (`Packet_Get`) and `Packet_Put`
* `Flash.c`  — `Flash_AllocateVar`, `Flash_Write8/16/32/64`, `Flash_Erase`

Modelling conventions:
* machine bytes are `Nat` values; machine arithmetic that truncates in C is
  written with explicit `% 256`, `% 2^32`, … at the points where the C types
  truncate;
* the FIFO capacity `FIFO_SIZE` is a compile-time constant declared in the
  repository's `FIFO.h` (not part of the sources at hand), so it is carried
  as an explicit parameter `c` of every FIFO operation;
* fallible C functions returning `bool` plus an out-parameter are embedded
  as functions returning `Option`/`Bool ×` state;
* flash memory is addressed by the offset of a byte from `FLASH_DATA_START`;
  a C pointer argument `address` is represented by the mathematical integer
  `address - FLASH_DATA_START` (an `Int`, since the C subtraction can be
  conceptually negative before its unsigned wrap, which the embedding
  performs explicitly).
-/

namespace Firmware

/-- Embedding of the C struct `TFIFO` from `FIFO.h`/`FIFO.c`: a byte array
`Buffer` (modelled as a total function from indices to byte values), the
`Start` and `End` indices and the byte count `NbBytes`. -/
structure TFIFO where
  Start : Nat
  End : Nat
  NbBytes : Nat
  Buffer : Nat → Nat

/-- Embedding of `FIFO_Init` (`FIFO.c` lines 23-28): resets `Start`, `End`
and `NbBytes` to 0.  The buffer contents are not touched. -/
def FIFO_Init (f : TFIFO) : TFIFO :=
  { f with Start := 0, End := 0, NbBytes := 0 }

/-- Embedding of `FIFO_Put` (`FIFO.c` lines 37-63), with capacity
`FIFO_SIZE` passed as the parameter `c`.  If the FIFO is not full the byte
is stored at index `End`, `NbBytes` is incremented and `End` advances
modulo the capacity; otherwise the call fails leaving the state unchanged.
The `EnterCritical`/`ExitCritical` pair only suspends interrupts and has no
effect on the buffer state, so it has no counterpart in the embedding. -/
def FIFO_Put (c : Nat) (f : TFIFO) (data : Nat) : Bool × TFIFO :=
  if f.NbBytes < c then
    (true,
      { Start := f.Start
        End := (f.End + 1) % c
        NbBytes := f.NbBytes + 1
        Buffer := fun i => if i = f.End then data else f.Buffer i })
  else
    (false, f)

/-- Embedding of `FIFO_Get` (`FIFO.c` lines 72-98).  If the FIFO is not
empty the byte at index `Start` is returned, `NbBytes` is decremented and
`Start` advances modulo the capacity; otherwise the call fails leaving the
state (and the caller's out-parameter) unchanged, which the embedding
renders as `none`. -/
def FIFO_Get (c : Nat) (f : TFIFO) : Option Nat × TFIFO :=
  if 0 < f.NbBytes then
    (some (f.Buffer f.Start),
      { f with Start := (f.Start + 1) % c, NbBytes := f.NbBytes - 1 })
  else
    (none, f)

/-- Sequential composition of `FIFO_Put` calls, one per list element, in
order; the boolean is the conjunction of the individual results (the C
callers combine the results with `&&`). -/
def putList (c : Nat) (f : TFIFO) : List Nat → Bool × TFIFO
  | [] => (true, f)
  | b :: bs =>
    let r := FIFO_Put c f b
    let r2 := putList c r.2 bs
    (r.1 && r2.1, r2.2)

/-- Sequential composition of `n` `FIFO_Get` calls, collecting each call's
result (`some` byte on success, `none` on failure) in order. -/
def getList (c : Nat) (f : TFIFO) : Nat → List (Option Nat) × TFIFO
  | 0 => ([], f)
  | n + 1 =>
    let r := FIFO_Get c f
    let r2 := getList c r.2 n
    (r.1 :: r2.1, r2.2)

/-- Abstraction function: the queue of bytes currently held by the FIFO,
oldest first — byte `i` of the queue lives at buffer index
`(Start + i) % c`. -/
def contents (c : Nat) (f : TFIFO) : List Nat :=
  (List.range f.NbBytes).map (fun i => f.Buffer ((f.Start + i) % c))

/-- Representation invariant of a FIFO with capacity `c` that has been
initialized and mutated only through `FIFO_Put`/`FIFO_Get`. -/
def Inv (c : Nat) (f : TFIFO) : Prop :=
  f.Start < c ∧ f.NbBytes ≤ c ∧ f.End = (f.Start + f.NbBytes) % c

theorem contents_length (c : Nat) (f : TFIFO) :
    (contents c f).length = f.NbBytes := by
  simp [contents]

theorem mod_add_inj {c s a b : Nat} (ha : a < c) (hb : b < c)
    (h : (s + a) % c = (s + b) % c) : a = b := by
  have h1 : a % c = b % c := Nat.ModEq.add_left_cancel' s h
  rwa [Nat.mod_eq_of_lt ha, Nat.mod_eq_of_lt hb] at h1

theorem FIFO_Init_inv (c : Nat) (hc : 0 < c) (f : TFIFO) :
    Inv c (FIFO_Init f) ∧ contents c (FIFO_Init f) = [] := by
  refine ⟨⟨hc, Nat.zero_le _, by simp [FIFO_Init]⟩, ?_⟩
  simp [contents, FIFO_Init]

theorem FIFO_Put_full (c : Nat) (f : TFIFO) (b : Nat) (h : f.NbBytes = c) :
    FIFO_Put c f b = (false, f) := by
  simp [FIFO_Put, h]

theorem FIFO_Get_empty (c : Nat) (f : TFIFO) (h : f.NbBytes = 0) :
    FIFO_Get c f = (none, f) := by
  simp [FIFO_Get, h]

theorem FIFO_Put_spec (c : Nat) (f : TFIFO) (b : Nat) (hInv : Inv c f)
    (hlt : f.NbBytes < c) :
    (FIFO_Put c f b).1 = true ∧ Inv c (FIFO_Put c f b).2 ∧
      contents c (FIFO_Put c f b).2 = contents c f ++ [b] ∧
      (FIFO_Put c f b).2.NbBytes = f.NbBytes + 1 ∧
      (FIFO_Put c f b).2.Start = f.Start := by
  obtain ⟨hs, hn, he⟩ := hInv
  refine ⟨by simp [FIFO_Put, hlt], ⟨?_, ?_, ?_⟩, ?_, ?_, ?_⟩
  · simpa [FIFO_Put, hlt] using hs
  · simp only [FIFO_Put, hlt, if_pos]
    omega
  · simp only [FIFO_Put, hlt, if_pos]
    rw [he, Nat.mod_add_mod, Nat.add_assoc]
  · simp only [FIFO_Put, hlt, if_pos, contents, List.range_succ, List.map_append,
      List.map_cons, List.map_nil]
    congr 1
    · refine List.map_congr_left (fun i hi => ?_)
      have hi' : i < f.NbBytes := List.mem_range.mp hi
      have hne : (f.Start + i) % c ≠ f.End := by
        rw [he]
        intro hEq
        exact absurd (mod_add_inj (Nat.lt_trans hi' hlt) hlt hEq)
          (Nat.ne_of_lt hi')
      simp [hne]
    · rw [← he]
      simp
  · simp [FIFO_Put, hlt]
  · simp [FIFO_Put, hlt]

theorem FIFO_Get_spec (c : Nat) (f : TFIFO) (hInv : Inv c f)
    (hpos : 0 < f.NbBytes) :
    (FIFO_Get c f).1 = some (f.Buffer f.Start) ∧ Inv c (FIFO_Get c f).2 ∧
      contents c f = f.Buffer f.Start :: contents c (FIFO_Get c f).2 ∧
      (FIFO_Get c f).2.NbBytes = f.NbBytes - 1 := by
  obtain ⟨hs, hn, he⟩ := hInv
  have hc : 0 < c := Nat.lt_of_le_of_lt (Nat.zero_le _) hs
  refine ⟨by simp [FIFO_Get, hpos], ⟨?_, ?_, ?_⟩, ?_, ?_⟩
  · simpa [FIFO_Get, hpos] using Nat.mod_lt _ hc
  · simp [FIFO_Get, hpos]
    omega
  · simp only [FIFO_Get, hpos, if_pos]
    rw [he, Nat.mod_add_mod]
    congr 1
    omega
  · -- contents f = head :: contents (get f).2
    obtain ⟨m, hm⟩ : ∃ m, f.NbBytes = m + 1 :=
      ⟨f.NbBytes - 1, (Nat.succ_pred_eq_of_pos hpos).symm⟩
    simp only [FIFO_Get, hpos, if_pos]
    simp only [contents, hm, Nat.add_sub_cancel,
      List.range_succ_eq_map, List.map_cons, List.map_map]
    congr 1
    · rw [Nat.add_zero, Nat.mod_eq_of_lt hs]
    · refine List.map_congr_left (fun i _ => ?_)
      simp only [Function.comp_apply]
      rw [Nat.mod_add_mod]
      have h2 : f.Start + Nat.succ i = f.Start + 1 + i := by omega
      rw [h2]
  · simp [FIFO_Get, hpos]

theorem putList_spec (c : Nat) : ∀ (bs : List Nat) (f : TFIFO), Inv c f →
    f.NbBytes + bs.length ≤ c →
    (putList c f bs).1 = true ∧ Inv c (putList c f bs).2 ∧
      contents c (putList c f bs).2 = contents c f ++ bs ∧
      (putList c f bs).2.NbBytes = f.NbBytes + bs.length
  | [], f, hInv, _ => by simp [putList, hInv]
  | b :: bs, f, hInv, hlen => by
    have hlt : f.NbBytes < c := by
      simp only [List.length_cons] at hlen; omega
    obtain ⟨hput1, hputInv, hputC, hputN, _⟩ := FIFO_Put_spec c f b hInv hlt
    have hlen2 : (FIFO_Put c f b).2.NbBytes + bs.length ≤ c := by
      rw [hputN]; simp only [List.length_cons] at hlen; omega
    obtain ⟨ih1, ih2, ih3, ih4⟩ := putList_spec c bs (FIFO_Put c f b).2 hputInv hlen2
    refine ⟨?_, ?_, ?_, ?_⟩
    · simp [putList, hput1, ih1]
    · simpa [putList] using ih2
    · simp only [putList]
      rw [ih3, hputC, List.append_assoc, List.singleton_append]
    · simp only [putList]
      rw [ih4, hputN, List.length_cons]
      omega

/-- Once the FIFO is full and no byte is ever removed, every further
`FIFO_Put` fails and leaves the state untouched. -/
theorem putList_stuck (c : Nat) : ∀ (bs : List Nat) (f : TFIFO),
    c ≤ f.NbBytes →
    (putList c f bs).2 = f ∧ ((putList c f bs).1 = true ↔ bs = [])
  | [], f, _ => by simp [putList]
  | b :: bs, f, hfull => by
    have hput : FIFO_Put c f b = (false, f) := by
      simp [FIFO_Put, Nat.not_lt.mpr hfull]
    obtain ⟨ih1, _⟩ := putList_stuck c bs f hfull
    simp [putList, hput, ih1]

theorem putList_result (c : Nat) : ∀ (bs : List Nat) (f : TFIFO),
    f.NbBytes ≤ c →
    ((putList c f bs).1 = true ↔ f.NbBytes + bs.length ≤ c) ∧
      (putList c f bs).2.NbBytes = min c (f.NbBytes + bs.length)
  | [], f, hle => by
    simp only [putList, List.length_nil, Nat.add_zero]
    exact ⟨by simpa using hle, by omega⟩
  | b :: bs, f, hle => by
    rcases Nat.lt_or_ge f.NbBytes c with hlt | hge
    · have hput1 : (FIFO_Put c f b).1 = true := by simp [FIFO_Put, hlt]
      have hputN : (FIFO_Put c f b).2.NbBytes = f.NbBytes + 1 := by
        simp [FIFO_Put, hlt]
      obtain ⟨ih1, ih2⟩ := putList_result c bs (FIFO_Put c f b).2
        (by rw [hputN]; omega)
      refine ⟨?_, ?_⟩
      · simp only [putList, hput1, Bool.true_and, List.length_cons]
        rw [ih1, hputN]
        omega
      · simp only [putList, List.length_cons]
        rw [ih2, hputN]
        omega
    · have hfull : f.NbBytes = c := Nat.le_antisymm hle hge
      obtain ⟨h1, h2⟩ := putList_stuck c (b :: bs) f hge
      refine ⟨?_, ?_⟩
      · rw [h2]
        simp only [List.length_cons]
        constructor
        · intro h; cases h
        · intro h; omega
      · rw [h1, hfull]
        simp only [List.length_cons]
        omega

theorem getList_contents (c : Nat) : ∀ (n : Nat) (f : TFIFO), Inv c f →
    n = f.NbBytes →
    (getList c f n).1 = (contents c f).map some ∧
      (getList c f n).2.NbBytes = 0
  | 0, f, _, hn => by
    have : contents c f = [] := by
      simp [contents, ← hn]
    simp [getList, this, ← hn]
  | n + 1, f, hInv, hn => by
    have hpos : 0 < f.NbBytes := by omega
    obtain ⟨hget1, hgetInv, hgetC, hgetN⟩ := FIFO_Get_spec c f hInv hpos
    obtain ⟨ih1, ih2⟩ := getList_contents c n (FIFO_Get c f).2 hgetInv
      (by rw [hgetN]; omega)
    refine ⟨?_, ?_⟩
    · simp only [getList]
      rw [ih1, hget1, hgetC, List.map_cons]
    · simpa [getList] using ih2

/-- The state reached by enqueuing the bytes `bs` into a freshly
initialized FIFO of capacity `c`. -/
def afterPuts (c : Nat) (f0 : TFIFO) (bs : List Nat) : Bool × TFIFO :=
  putList c (FIFO_Init f0) bs

/-- C7 — For every sequence of bytes of length at most the capacity `c`,
starting from an empty (freshly initialized) ring buffer, all the
`FIFO_Put` calls succeed, and an equal-length sequence of `FIFO_Get` calls
returns exactly the same bytes in the same order. -/
theorem fifo_put_get_roundtrip (c : Nat) (bs : List Nat) (f0 : TFIFO)
    (hc : 0 < c) (hlen : bs.length ≤ c) :
    (afterPuts c f0 bs).1 = true ∧
      (getList c (afterPuts c f0 bs).2 bs.length).1 = bs.map some := by
  obtain ⟨hInv0, hC0⟩ := FIFO_Init_inv c hc f0
  have hn0 : (FIFO_Init f0).NbBytes = 0 := rfl
  obtain ⟨h1, h2, h3, h4⟩ := putList_spec c bs (FIFO_Init f0) hInv0
    (by rw [hn0]; omega)
  refine ⟨h1, ?_⟩
  obtain ⟨g1, _⟩ := getList_contents c bs.length (putList c (FIFO_Init f0) bs).2
    h2 (by rw [h4, hn0, Nat.zero_add])
  rw [afterPuts, g1, h3, hC0, List.nil_append]

/-- The claim theorem for C7 has hypotheses; this witness instantiates it
with capacity 4 and the concrete byte sequence `[10, 20, 30]`. -/
theorem fifo_put_get_roundtrip_witness :
    0 < 4 ∧ ([10, 20, 30] : List Nat).length ≤ 4 ∧
      ((afterPuts 4 ⟨0, 0, 0, fun _ => 0⟩ [10, 20, 30]).1 = true ∧
        (getList 4 (afterPuts 4 ⟨0, 0, 0, fun _ => 0⟩ [10, 20, 30]).2
          ([10, 20, 30] : List Nat).length).1 = [10, 20, 30].map some) :=
  ⟨by decide, by decide,
    fifo_put_get_roundtrip 4 [10, 20, 30] ⟨0, 0, 0, fun _ => 0⟩
      (by decide) (by decide)⟩

/-- C8 — `FIFO_Put` on a full buffer (count equal to capacity) returns
false and leaves the whole state — count, start, end and buffer contents —
unchanged, and `FIFO_Get` on an empty buffer (count 0) fails (returns no
byte) and leaves the entire state unchanged. -/
theorem fifo_full_empty_unchanged (c : Nat) (f g : TFIFO) (b : Nat)
    (hfull : f.NbBytes = c) (hempty : g.NbBytes = 0) :
    FIFO_Put c f b = (false, f) ∧ FIFO_Get c g = (none, g) :=
  ⟨FIFO_Put_full c f b hfull, FIFO_Get_empty c g hempty⟩

/-- Witness for C8 at capacity 2: a concrete full FIFO rejects a put
unchanged and a concrete empty FIFO rejects a get unchanged. -/
theorem fifo_full_empty_unchanged_witness :
    (⟨0, 0, 2, fun _ => 7⟩ : TFIFO).NbBytes = 2 ∧
      (⟨1, 1, 0, fun _ => 7⟩ : TFIFO).NbBytes = 0 ∧
      (FIFO_Put 2 ⟨0, 0, 2, fun _ => 7⟩ 9 = (false, ⟨0, 0, 2, fun _ => 7⟩) ∧
        FIFO_Get 2 ⟨1, 1, 0, fun _ => 7⟩ = (none, ⟨1, 1, 0, fun _ => 7⟩)) :=
  ⟨rfl, rfl, fifo_full_empty_unchanged 2 ⟨0, 0, 2, fun _ => 7⟩
    ⟨1, 1, 0, fun _ => 7⟩ 9 rfl rfl⟩

/-! Packet protocol (`packet.c`) -/

/-- Embedding of `calculateChecksum` (`packet.c` lines 47-52): the XOR of
the command byte and the three parameter bytes. -/
def calculateChecksum (command parameter1 parameter2 parameter3 : Nat) : Nat :=
  Nat.xor (Nat.xor (Nat.xor command parameter1) parameter2) parameter3

/-- Embedding of the packet assembly state of `packet.c`: the static
`ByteCount` counter (lines 36-37) together with the five global packet
byte variables (lines 29-33). -/
structure PacketState where
  ByteCount : Nat
  Command : Nat
  Parameter1 : Nat
  Parameter2 : Nat
  Parameter3 : Nat
  Checksum : Nat

/-- Embedding of the body of `Packet_Get` (`packet.c` lines 80-129) once
`UART_InChar` has delivered the byte `data` — the `switch (ByteCount)`
state machine.  Returns the C function's boolean result (`true` exactly
when a validated packet is complete) paired with the updated state.  The
early-exit path where `UART_InChar` fails (lines 75-76) leaves the state
untouched and is covered by `Packet_Get` below. -/
def Packet_Get_step (s : PacketState) (data : Nat) : Bool × PacketState :=
  match s.ByteCount with
  | 0 => (false, { s with Command := data, ByteCount := s.ByteCount + 1 })
  | 1 => (false, { s with Parameter1 := data, ByteCount := s.ByteCount + 1 })
  | 2 => (false, { s with Parameter2 := data, ByteCount := s.ByteCount + 1 })
  | 3 => (false, { s with Parameter3 := data, ByteCount := s.ByteCount + 1 })
  | 4 =>
    if calculateChecksum s.Command s.Parameter1 s.Parameter2 s.Parameter3
        = data then
      (true, { s with Checksum := data, ByteCount := 0 })
    else
      (false,
        { s with
          Command := s.Parameter1
          Parameter1 := s.Parameter2
          Parameter2 := s.Parameter3
          Parameter3 := data
          Checksum := data })
  | _ => (false, { s with ByteCount := s.ByteCount + 1 })

/-- Embedding of the whole of `Packet_Get` (`packet.c` lines 69-130): pull
at most one byte from the receive FIFO (`UART_InChar`, which is
`FIFO_Get` on `RxFIFO` — `UART.c` lines 109-112); if the FIFO was empty
return false leaving the assembly state untouched. -/
def Packet_Get (c : Nat) (rx : TFIFO) (s : PacketState) :
    Bool × TFIFO × PacketState :=
  match FIFO_Get c rx with
  | (none, rx2) => (false, rx2, s)
  | (some data, rx2) =>
    let r := Packet_Get_step s data
    (r.1, rx2, r.2)

/-- C5 — Feeding the packet assembly state machine, started at position 0,
the five bytes `c, p1, p2, p3, c XOR p1 XOR p2 XOR p3` yields the outcomes
Incomplete (false) four times and then Complete (true); afterwards the
four stored fields are exactly `(c, p1, p2, p3)` and the position is back
at 0.  The starting field values `a1 … a5` are arbitrary. -/
theorem packet_get_valid_frame (cb p1 p2 p3 a1 a2 a3 a4 a5 : Nat) :
    let s0 : PacketState := ⟨0, a1, a2, a3, a4, a5⟩
    let chk := calculateChecksum cb p1 p2 p3
    let r1 := Packet_Get_step s0 cb
    let r2 := Packet_Get_step r1.2 p1
    let r3 := Packet_Get_step r2.2 p2
    let r4 := Packet_Get_step r3.2 p3
    let r5 := Packet_Get_step r4.2 chk
    r1.1 = false ∧ r2.1 = false ∧ r3.1 = false ∧ r4.1 = false ∧
      r5.1 = true ∧
      r5.2.Command = cb ∧ r5.2.Parameter1 = p1 ∧ r5.2.Parameter2 = p2 ∧
      r5.2.Parameter3 = p3 ∧ r5.2.ByteCount = 0 := by
  simp [Packet_Get_step]

/-- C4 — When the assembly position is 4 and the received byte `data` does
not match the XOR checksum of the held fields, `Packet_Get_step` shifts the
window one byte to the left (command←parameter1←parameter2←parameter3←the
received byte), reports no completed packet (false), and leaves the
position at 4 — so the next byte `b` completes a packet exactly when it
matches the checksum of the shifted window, not of a reset window. -/
theorem packet_get_resync_shift (cb p1 p2 p3 a data : Nat)
    (hmis : calculateChecksum cb p1 p2 p3 ≠ data) :
    let s : PacketState := ⟨4, cb, p1, p2, p3, a⟩
    Packet_Get_step s data =
      (false, ⟨4, p1, p2, p3, data, data⟩) ∧
      (∀ b : Nat, (Packet_Get_step (Packet_Get_step s data).2 b).1 = true ↔
        calculateChecksum p1 p2 p3 data = b) := by
  refine ⟨?_, ?_⟩
  · simp [Packet_Get_step, hmis]
  · intro b
    simp only [Packet_Get_step, hmis, if_neg]
    by_cases h : calculateChecksum p1 p2 p3 data = b <;> simp [h]

/-- Witness for C4: the held window `(1, 2, 3, 4)` has checksum
`1 XOR 2 XOR 3 XOR 4 = 4`, so the received byte 9 mismatches; the shift is
performed and the shifted window `(2, 3, 4, 9)` (checksum 12) governs the
next byte. -/
theorem packet_get_resync_shift_witness :
    calculateChecksum 1 2 3 4 ≠ 9 ∧
      (Packet_Get_step ⟨4, 1, 2, 3, 4, 0⟩ 9 =
          (false, ⟨4, 2, 3, 4, 9, 9⟩) ∧
        (∀ b : Nat,
          (Packet_Get_step (Packet_Get_step ⟨4, 1, 2, 3, 4, 0⟩ 9).2 b).1
              = true ↔ calculateChecksum 2 3 4 9 = b)) :=
  ⟨by decide, packet_get_resync_shift 1 2 3 4 0 9 (by decide)⟩

/-- Embedding of `Packet_Put` (`packet.c` lines 136-146): five
`UART_OutChar` calls (each a `FIFO_Put` into the transmit FIFO, `UART.c`
lines 120-129) combined with the short-circuiting `&&`; the result is true
only if all five enqueues succeeded.  `EnterCritical`/`ExitCritical` only
suspend interrupts and do not alter the FIFO. -/
def Packet_Put (c : Nat) (f : TFIFO) (command parameter1 parameter2
    parameter3 : Nat) : Bool × TFIFO :=
  let r1 := FIFO_Put c f command
  if r1.1 then
    let r2 := FIFO_Put c r1.2 parameter1
    if r2.1 then
      let r3 := FIFO_Put c r2.2 parameter2
      if r3.1 then
        let r4 := FIFO_Put c r3.2 parameter3
        if r4.1 then
          let r5 := FIFO_Put c r4.2
            (calculateChecksum command parameter1 parameter2 parameter3)
          (r5.1, r5.2)
        else (false, r4.2)
      else (false, r3.2)
    else (false, r2.2)
  else (false, r1.2)

theorem putList_cons (c : Nat) (f : TFIFO) (b : Nat) (bs : List Nat) :
    putList c f (b :: bs) =
      ((FIFO_Put c f b).1 && (putList c (FIFO_Put c f b).2 bs).1,
        (putList c (FIFO_Put c f b).2 bs).2) := rfl

theorem FIFO_Put_not_true {c : Nat} {g : TFIFO} {b : Nat}
    (h : ¬ (FIFO_Put c g b).1 = true) :
    (FIFO_Put c g b).1 = false ∧ (FIFO_Put c g b).2 = g ∧
      c ≤ g.NbBytes := by
  by_cases hlt : g.NbBytes < c
  · simp [FIFO_Put, hlt] at h
  · exact ⟨by simp [FIFO_Put, hlt], by simp [FIFO_Put, hlt],
      Nat.not_lt.mp hlt⟩

/-- Bridge: `Packet_Put` behaves exactly like enqueuing the five frame
bytes in sequence.  The short-circuit of `&&` makes no difference to the
final state because a failed `FIFO_Put` leaves the FIFO unchanged and the
FIFO, once full, stays full while nothing is dequeued. -/
theorem Packet_Put_eq_putList (c : Nat) (f : TFIFO)
    (cb p1 p2 p3 : Nat) :
    Packet_Put c f cb p1 p2 p3 =
      putList c f [cb, p1, p2, p3, calculateChecksum cb p1 p2 p3] := by
  simp only [Packet_Put]
  rw [putList_cons]
  by_cases h1 : (FIFO_Put c f cb).1 = true
  · rw [if_pos h1, h1, Bool.true_and, putList_cons]
    by_cases h2 : (FIFO_Put c (FIFO_Put c f cb).2 p1).1 = true
    · rw [if_pos h2, h2, Bool.true_and, putList_cons]
      by_cases h3 : (FIFO_Put c (FIFO_Put c (FIFO_Put c f cb).2 p1).2
          p2).1 = true
      · rw [if_pos h3, h3, Bool.true_and, putList_cons]
        by_cases h4 : (FIFO_Put c (FIFO_Put c (FIFO_Put c
            (FIFO_Put c f cb).2 p1).2 p2).2 p3).1 = true
        · rw [if_pos h4, h4, Bool.true_and, putList_cons]
          simp [putList]
        · obtain ⟨hf, he, hge⟩ := FIFO_Put_not_true h4
          rw [if_neg h4, hf, he, Bool.false_and,
            (putList_stuck c [calculateChecksum cb p1 p2 p3] _ hge).1]
      · obtain ⟨hf, he, hge⟩ := FIFO_Put_not_true h3
        rw [if_neg h3, hf, he, Bool.false_and,
          (putList_stuck c [p3, calculateChecksum cb p1 p2 p3] _ hge).1]
    · obtain ⟨hf, he, hge⟩ := FIFO_Put_not_true h2
      rw [if_neg h2, hf, he, Bool.false_and,
        (putList_stuck c [p2, p3, calculateChecksum cb p1 p2 p3] _ hge).1]
  · obtain ⟨hf, he, hge⟩ := FIFO_Put_not_true h1
    rw [if_neg h1, hf, he, Bool.false_and,
      (putList_stuck c [p1, p2, p3, calculateChecksum cb p1 p2 p3] _ hge).1]

/-- An initialized FIFO whose backing array holds zeros; used as a concrete
starting state by several witnesses. -/
def zeroFIFO : TFIFO := ⟨0, 0, 0, fun _ => 0⟩

/-- Counterexample to C3 as stated: with capacity 2 and an initially empty
transmit FIFO, `Packet_Put` returns false (the third enqueue fails), yet
the FIFO is not as it was before the call — two bytes of a partial frame
remain in it (`NbBytes` went from 0 to 2). -/
theorem packet_put_not_atomic :
    (Packet_Put 2 zeroFIFO 1 2 3 4).1 = false ∧
      (Packet_Put 2 zeroFIFO 1 2 3 4).2.NbBytes = 2 ∧
      zeroFIFO.NbBytes = 0 := by
  refine ⟨rfl, rfl, rfl⟩

/-- C3 amended — `Packet_Put` returns true iff all five byte enqueues into
the transmit ring buffer succeed (equivalently, iff the buffer had at
least five free slots); it is NOT atomic on failure: when it returns
false the bytes enqueued before the failing one remain, leaving the
buffer completely full. -/
theorem packet_put_success_iff (c : Nat) (f : TFIFO)
    (cb p1 p2 p3 : Nat) (hle : f.NbBytes ≤ c) :
    ((Packet_Put c f cb p1 p2 p3).1 = true ↔ f.NbBytes + 5 ≤ c) ∧
      ((Packet_Put c f cb p1 p2 p3).1 = false →
        (Packet_Put c f cb p1 p2 p3).2.NbBytes = c) := by
  rw [Packet_Put_eq_putList]
  obtain ⟨h1, h2⟩ := putList_result c
    [cb, p1, p2, p3, calculateChecksum cb p1 p2 p3] f hle
  simp only [List.length_cons, List.length_nil] at h1 h2
  refine ⟨by simpa using h1, fun hfalse => ?_⟩
  have hnot : ¬ (f.NbBytes + 5 ≤ c) := by
    intro hcap
    have := h1.mpr (by omega)
    rw [this] at hfalse
    cases hfalse
  rw [h2]
  omega

/-- Witness for the amended C3 at capacity 2 with an empty FIFO: the
success criterion `0 + 5 ≤ 2` fails, `Packet_Put` reports false, and the
buffer is left full (`NbBytes = 2`). -/
theorem packet_put_success_iff_witness :
    zeroFIFO.NbBytes ≤ 2 ∧
      (((Packet_Put 2 zeroFIFO 1 2 3 4).1 = true ↔
          zeroFIFO.NbBytes + 5 ≤ 2) ∧
        ((Packet_Put 2 zeroFIFO 1 2 3 4).1 = false →
          (Packet_Put 2 zeroFIFO 1 2 3 4).2.NbBytes = 2)) :=
  ⟨by decide, packet_put_success_iff 2 zeroFIFO 1 2 3 4 (by decide)⟩

/-- C9 — A successful `Packet_Put cmd p1 p2 p3` on an empty (freshly
initialized) transmit ring buffer of capacity at least 5 is followed by
five `FIFO_Get` calls returning exactly the bytes
`cmd, p1, p2, p3, cmd XOR p1 XOR p2 XOR p3` in that order. -/
theorem packet_put_then_get_frame (c : Nat) (cb p1 p2 p3 : Nat)
    (f0 : TFIFO) (hc : 5 ≤ c) :
    (Packet_Put c (FIFO_Init f0) cb p1 p2 p3).1 = true ∧
      (getList c (Packet_Put c (FIFO_Init f0) cb p1 p2 p3).2 5).1 =
        [some cb, some p1, some p2, some p3,
          some (calculateChecksum cb p1 p2 p3)] := by
  obtain ⟨hInv0, hC0⟩ := FIFO_Init_inv c (by omega) f0
  rw [Packet_Put_eq_putList]
  obtain ⟨h1, h2, h3, h4⟩ := putList_spec c
    [cb, p1, p2, p3, calculateChecksum cb p1 p2 p3] (FIFO_Init f0) hInv0
    (by simp [FIFO_Init]; omega)
  refine ⟨h1, ?_⟩
  obtain ⟨g1, _⟩ := getList_contents c 5 _ h2
    (by rw [h4]; simp [FIFO_Init])
  rw [g1, h3, hC0]
  simp

/-- Witness for C9 at capacity 5 with the frame `(17, 34, 51, 68)`. -/
theorem packet_put_then_get_frame_witness :
    5 ≤ 5 ∧
      ((Packet_Put 5 (FIFO_Init zeroFIFO) 17 34 51 68).1 = true ∧
        (getList 5 (Packet_Put 5 (FIFO_Init zeroFIFO) 17 34 51 68).2 5).1 =
          [some 17, some 34, some 51, some 68,
            some (calculateChecksum 17 34 51 68)]) :=
  ⟨by decide, packet_put_then_get_frame 5 17 34 51 68 zeroFIFO (by decide)⟩

/-! Flash storage engine (`Flash.c`)

The data sector is the byte range `FLASH_DATA_START .. FLASH_DATA_END`,
`FLASH_SIZE = 8` bytes long: the 8-byte "phrase" that `ProgramPhrase`
transfers into the `FTFE_FCCOB4..B` registers (`Flash.c` lines 298-308)
and that `Flash_Write64` programs as a whole.  A sector is modelled as a
total function from byte offsets (from `FLASH_DATA_START`) to byte
values.  C pointer arguments are represented by the mathematical offset
`address - FLASH_DATA_START : Int`; the C code computes this difference
in 32-bit unsigned arithmetic and stores it in a `uint8_t`, which the
embedding reproduces with explicit `% 2^32` and `% 2^8`. -/

/-- Size in bytes of the flash data region (one programmable phrase). -/
def FLASH_SIZE : Nat := 8

/-- Value of an erased flash byte (all bits 1, `0xFF`). -/
def ERASED : Nat := 255

/-- Embedding of the inner loop of `Flash_AllocateVar` (`Flash.c` lines
408-418): candidate start `i` is acceptable only if each following byte
`i + j` (`1 ≤ j < size`) is inside the sector and erased. -/
def runFree (sector : Nat → Nat) (i size : Nat) : Bool :=
  (List.range size).all fun j =>
    decide (j = 0) ||
      (decide (i + j < FLASH_SIZE) && decide (sector (i + j) = ERASED))

/-- Embedding of the outer loop of `Flash_AllocateVar` (`Flash.c` lines
400-427), carrying the C locals `addressFound` (`found`) and
`addressIndex` (`idx`) through the iterations `i = 0, size, 2*size, …`.
The loop runs while `i < FLASH_SIZE`; the fuel argument (instantiated
with `FLASH_SIZE`) only bounds the recursion and never runs out first
because `i` grows by `size ≥ 1` each step.  Note that the C code never
resets `addressFound` to true once it has been cleared, which this
embedding reproduces faithfully (`found && runFree …`). -/
def allocScan (sector : Nat → Nat) (size : Nat) :
    Nat → Nat → Bool → Nat → Bool × Nat
  | 0, _, found, idx => (found, idx)
  | fuel + 1, i, found, idx =>
    if i < FLASH_SIZE then
      if sector i = ERASED then
        let found2 := found && runFree sector i size
        if found2 then (true, i)
        else allocScan sector size fuel (i + size) found2 idx
      else allocScan sector size fuel (i + size) found idx
    else (found, idx)

/-- Embedding of `Flash_AllocateVar` (`Flash.c` lines 390-437).  Returns
`some offset` when the C function returns true after storing
`FLASH_DATA_START + offset` into `*variable`, and `none` when it returns
false.  The C local `uint8_t addressIndex = -1` starts as `255`, so if
the scan ends with `addressFound` still true but no candidate ever
examined, the function returns the out-of-sector offset `255`. -/
def Flash_AllocateVar (sector : Nat → Nat) (size : Nat) : Option Nat :=
  if size = 1 ∨ size = 2 ∨ size = 4 then
    let r := allocScan sector size FLASH_SIZE 0 true 255
    if r.1 then some r.2 else none
  else none

/-- Embedding of the offset computation shared by the `Flash_Write*`
functions (`uint8_t index = (uint32_t) address - FLASH_DATA_START`): the
pointer difference wraps in 32-bit unsigned arithmetic and is then
truncated to 8 bits by the `uint8_t` conversion. -/
def flashIndex (addrOffset : Int) : Nat :=
  (addrOffset % 4294967296).toNat % 256

/-- Embedding of `FlashBackup` (`Flash.c` lines 367-375): the command
mirror is a copy of the sector's bytes.  (The C function also returns
true unconditionally.) -/
def FlashBackup (sector : Nat → Nat) : Nat → Nat :=
  fun i => sector i

/-- Sector state produced by the hardware erase command issued by
`Flash_Erase` (`Flash.c` lines 613-620): every byte of the erase granule
returns to the erased all-1-bits state. -/
def Flash_EraseEffect : Nat → Nat :=
  fun _ => ERASED

/-- Sector state produced by `LaunchCommand` executing the program-phrase
command (`Flash.c` lines 298-308 and 343-345): the 8 mirror bytes are
programmed at the sector base, while bytes beyond the phrase keep the
state the preceding erase left them in. -/
def ProgramPhraseEffect (erased mirror : Nat → Nat) : Nat → Nat :=
  fun n => if n < FLASH_SIZE then mirror n else erased n

/-- Embedding of `Flash_Write8` (`Flash.c` lines 579-606): validate the
offset (the C check `index < 0` is vacuously false for the unsigned
`uint8_t`, reproduced literally here for the `Nat` index), back up the
sector into the mirror, patch the target byte, erase the sector and
program the whole mirror back.  Both hardware commands always report
success in this model, so the result is `some` of the new sector
whenever validation passes. -/
def Flash_Write8 (sector : Nat → Nat) (addrOffset : Int) (data : Nat) :
    Option (Nat → Nat) :=
  let index := flashIndex addrOffset
  if index < 0 ∨ FLASH_SIZE ≤ index then none
  else
    let d := data % 256
    let mirror := FlashBackup sector
    let mirror2 := fun n => if n = index then d else mirror n
    some (ProgramPhraseEffect Flash_EraseEffect mirror2)

/-- Embedding of `Flash_Write16` (`Flash.c` lines 540-570).  The
`uint16union_t` decomposition on the little-endian target splits `data`
into `Lo = data % 256` (stored at the target offset) and
`Hi = data / 256` (stored at the following offset). -/
def Flash_Write16 (sector : Nat → Nat) (addrOffset : Int) (data : Nat) :
    Option (Nat → Nat) :=
  let index := flashIndex addrOffset
  if index < 0 ∨ FLASH_SIZE ≤ index ∨ index % 2 ≠ 0 then none
  else
    let d := data % 65536
    let mirror := FlashBackup sector
    let mirror2 := fun n =>
      if n = index then d % 256
      else if n = index + 1 then d / 256
      else mirror n
    some (ProgramPhraseEffect Flash_EraseEffect mirror2)

/-- Embedding of `Flash_Write32` (`Flash.c` lines 497-531): the
`uint32union_t`/`uint16union_t` chain splits `data` into the four mirror
bytes `Lo.Lo, Lo.Hi, Hi.Lo, Hi.Hi` at offsets `index .. index + 3`. -/
def Flash_Write32 (sector : Nat → Nat) (addrOffset : Int) (data : Nat) :
    Option (Nat → Nat) :=
  let index := flashIndex addrOffset
  if index < 0 ∨ FLASH_SIZE ≤ index ∨ index % 4 ≠ 0 then none
  else
    let d := data % 4294967296
    let lo := d % 65536
    let hi := d / 65536
    let mirror := FlashBackup sector
    let mirror2 := fun n =>
      if n = index then lo % 256
      else if n = index + 1 then lo / 256
      else if n = index + 2 then hi % 256
      else if n = index + 3 then hi / 256
      else mirror n
    some (ProgramPhraseEffect Flash_EraseEffect mirror2)

/-- Embedding of `Flash_Write64` (`Flash.c` lines 446-488): the
`uint64union_t`/`uint32union_t`/`uint16union_t` chain splits `data` into
the eight mirror bytes at offsets `index .. index + 7`. -/
def Flash_Write64 (sector : Nat → Nat) (addrOffset : Int) (data : Nat) :
    Option (Nat → Nat) :=
  let index := flashIndex addrOffset
  if index < 0 ∨ FLASH_SIZE ≤ index ∨ index % 8 ≠ 0 then none
  else
    let d := data % 18446744073709551616
    let lo := d % 4294967296
    let hi := d / 4294967296
    let loLo := lo % 65536
    let loHi := lo / 65536
    let hiLo := hi % 65536
    let hiHi := hi / 65536
    let mirror := FlashBackup sector
    let mirror2 := fun n =>
      if n = index then loLo % 256
      else if n = index + 1 then loLo / 256
      else if n = index + 2 then loHi % 256
      else if n = index + 3 then loHi / 256
      else if n = index + 4 then hiLo % 256
      else if n = index + 5 then hiLo / 256
      else if n = index + 6 then hiHi % 256
      else if n = index + 7 then hiHi / 256
      else mirror n
    some (ProgramPhraseEffect Flash_EraseEffect mirror2)

theorem flashIndex_ofNat (o : Nat) (h : o < 256) :
    flashIndex (o : Int) = o := by
  unfold flashIndex
  rw [Int.emod_eq_of_lt (by positivity)
    (by exact_mod_cast Nat.lt_trans h (by norm_num))]
  simp [Nat.mod_eq_of_lt h]

theorem Flash_Write8_eq (s : Nat → Nat) (o d : Nat) (ho : o < 8) :
    Flash_Write8 s (o : Int) d =
      some (ProgramPhraseEffect Flash_EraseEffect (fun n =>
        if n = o then d % 256 else FlashBackup s n)) := by
  have hidx : flashIndex (o : Int) = o := flashIndex_ofNat o (by omega)
  have hcond : ¬ (o < 0 ∨ FLASH_SIZE ≤ o) := by
    simp only [FLASH_SIZE]; omega
  simp only [Flash_Write8, hidx]
  rw [if_neg hcond]

theorem Flash_Write16_eq (s : Nat → Nat) (o d : Nat) (ho : o + 2 ≤ 8)
    (hal : o % 2 = 0) :
    Flash_Write16 s (o : Int) d =
      some (ProgramPhraseEffect Flash_EraseEffect (fun n =>
        if n = o then d % 65536 % 256
        else if n = o + 1 then d % 65536 / 256
        else FlashBackup s n)) := by
  have hidx : flashIndex (o : Int) = o := flashIndex_ofNat o (by omega)
  have hcond : ¬ (o < 0 ∨ FLASH_SIZE ≤ o ∨ o % 2 ≠ 0) := by
    simp only [FLASH_SIZE]; omega
  simp only [Flash_Write16, hidx]
  rw [if_neg hcond]

theorem Flash_Write32_eq (s : Nat → Nat) (o d : Nat) (ho : o + 4 ≤ 8)
    (hal : o % 4 = 0) :
    Flash_Write32 s (o : Int) d =
      some (ProgramPhraseEffect Flash_EraseEffect (fun n =>
        if n = o then d % 4294967296 % 65536 % 256
        else if n = o + 1 then d % 4294967296 % 65536 / 256
        else if n = o + 2 then d % 4294967296 / 65536 % 256
        else if n = o + 3 then d % 4294967296 / 65536 / 256
        else FlashBackup s n)) := by
  have hidx : flashIndex (o : Int) = o := flashIndex_ofNat o (by omega)
  have hcond : ¬ (o < 0 ∨ FLASH_SIZE ≤ o ∨ o % 4 ≠ 0) := by
    simp only [FLASH_SIZE]; omega
  simp only [Flash_Write32, hidx]
  rw [if_neg hcond]

theorem Flash_Write64_eq (s : Nat → Nat) (o d : Nat) (ho : o + 8 ≤ 8)
    (hal : o % 8 = 0) :
    Flash_Write64 s (o : Int) d =
      some (ProgramPhraseEffect Flash_EraseEffect (fun n =>
        if n = o then d % 18446744073709551616 % 4294967296 % 65536 % 256
        else if n = o + 1 then
          d % 18446744073709551616 % 4294967296 % 65536 / 256
        else if n = o + 2 then
          d % 18446744073709551616 % 4294967296 / 65536 % 256
        else if n = o + 3 then
          d % 18446744073709551616 % 4294967296 / 65536 / 256
        else if n = o + 4 then
          d % 18446744073709551616 / 4294967296 % 65536 % 256
        else if n = o + 5 then
          d % 18446744073709551616 / 4294967296 % 65536 / 256
        else if n = o + 6 then
          d % 18446744073709551616 / 4294967296 / 65536 % 256
        else if n = o + 7 then
          d % 18446744073709551616 / 4294967296 / 65536 / 256
        else FlashBackup s n)) := by
  have hidx : flashIndex (o : Int) = o := flashIndex_ofNat o (by omega)
  have hcond : ¬ (o < 0 ∨ FLASH_SIZE ≤ o ∨ o % 8 ≠ 0) := by
    simp only [FLASH_SIZE]; omega
  simp only [Flash_Write64, hidx]
  rw [if_neg hcond]

/-- A sector in which only the byte at offset 1 has been programmed; the
first aligned 2-byte run of erased bytes starts at offset 2. -/
def strandedSector : Nat → Nat :=
  fun n => if n = 1 then 0 else 255

/-- C1 evaluated at its failing input — the claim that `Flash_AllocateVar`
succeeds exactly when a fully erased aligned run exists, returning the
first one, is contradicted by the code: on `strandedSector` with size 2
the first candidate (offset 0) fails its run check and the C flag
`addressFound`, never reset to true, prevents the perfectly free run at
offset 2 from being accepted, so allocation fails; moreover, on a sector
with no erased byte at all, `addressFound` is still true after the scan
and the function "succeeds" with the out-of-sector offset 255 (the
`uint8_t addressIndex = -1` initializer).  On an entirely erased sector a
2-byte allocation does return the base offset 0, as the claim states. -/
theorem flash_allocateVar_bug :
    Flash_AllocateVar strandedSector 2 = none ∧
      strandedSector 2 = ERASED ∧ strandedSector 3 = ERASED ∧
      Flash_AllocateVar (fun _ => 0) 1 = some 255 ∧
      Flash_AllocateVar (fun _ => 255) 2 = some 0 :=
  ⟨rfl, rfl, rfl, rfl, rfl⟩

/-- C2 evaluated at its failing input — a 16-bit write at the odd offset 1
is rejected as the claim states, but the claim that every write whose
offset is negative or at least `FLASH_SIZE` fails is contradicted by the
code: the offset is truncated to a `uint8_t` (and the `index < 0` check
is vacuous on the unsigned type), so the out-of-range offsets 256 and
-256 truncate to 0, pass validation, and the write proceeds — landing at
offset 0, whose byte becomes `0x34`, the low byte of `0x1234`. -/
theorem flash_write_validation_bug :
    Flash_Write16 (fun _ => 255) 1 0x1234 = none ∧
      (Flash_Write16 (fun _ => 255) 256 0x1234).isSome = true ∧
      (Flash_Write16 (fun _ => 255) (-256) 0x1234).isSome = true ∧
      ((Flash_Write16 (fun _ => 255) 256 0x1234).getD (fun _ => 0)) 0
        = 0x34 :=
  ⟨rfl, rfl, rfl, rfl⟩

/-- C6 — A successful flash write of width `w` at an in-bounds aligned
offset `o` changes only the `w/8` bytes at offsets `o .. o + w/8 - 1` of
the sector and leaves every other sector byte equal to its pre-write
value; concretely, writing `0xABCD` at offset 0 and then `0x00FF` at
offset 4 leaves offset 0 still reading `0xABCD` (as the 16-bit
little-endian value of bytes 0 and 1). -/
theorem flash_write_frame :
    (∀ (s : Nat → Nat) (o d : Nat) (t : Nat → Nat), o < 8 →
        Flash_Write8 s (o : Int) d = some t →
        ∀ n, n < 8 → n ≠ o → t n = s n) ∧
    (∀ (s : Nat → Nat) (o d : Nat) (t : Nat → Nat), o + 2 ≤ 8 →
        o % 2 = 0 → Flash_Write16 s (o : Int) d = some t →
        ∀ n, n < 8 → (n < o ∨ o + 2 ≤ n) → t n = s n) ∧
    (∀ (s : Nat → Nat) (o d : Nat) (t : Nat → Nat), o + 4 ≤ 8 →
        o % 4 = 0 → Flash_Write32 s (o : Int) d = some t →
        ∀ n, n < 8 → (n < o ∨ o + 4 ≤ n) → t n = s n) ∧
    (∀ (s : Nat → Nat) (o d : Nat) (t : Nat → Nat), o + 8 ≤ 8 →
        o % 8 = 0 → Flash_Write64 s (o : Int) d = some t →
        ∀ n, n < 8 → (n < o ∨ o + 8 ≤ n) → t n = s n) ∧
    (∀ (s : Nat → Nat) (t u : Nat → Nat),
        Flash_Write16 s 0 0xABCD = some t →
        Flash_Write16 t 4 0x00FF = some u →
        u 0 + 256 * u 1 = 0xABCD) := by
  refine ⟨?_, ?_, ?_, ?_, ?_⟩
  · intro s o d t ho heq n hn hne
    rw [Flash_Write8_eq s o d ho] at heq
    injection heq with heq
    subst heq
    simp only [ProgramPhraseEffect, FlashBackup, FLASH_SIZE]
    rw [if_pos hn, if_neg hne]
  · intro s o d t ho hal heq n hn hout
    rw [Flash_Write16_eq s o d ho hal] at heq
    injection heq with heq
    subst heq
    simp only [ProgramPhraseEffect, FlashBackup, FLASH_SIZE]
    rw [if_pos hn, if_neg (by omega : ¬ n = o),
      if_neg (by omega : ¬ n = o + 1)]
  · intro s o d t ho hal heq n hn hout
    rw [Flash_Write32_eq s o d ho hal] at heq
    injection heq with heq
    subst heq
    simp only [ProgramPhraseEffect, FlashBackup, FLASH_SIZE]
    rw [if_pos hn, if_neg (by omega : ¬ n = o),
      if_neg (by omega : ¬ n = o + 1), if_neg (by omega : ¬ n = o + 2),
      if_neg (by omega : ¬ n = o + 3)]
  · intro s o d t ho hal heq n hn hout
    rw [Flash_Write64_eq s o d ho hal] at heq
    injection heq with heq
    subst heq
    simp only [ProgramPhraseEffect, FlashBackup, FLASH_SIZE]
    rw [if_pos hn, if_neg (by omega : ¬ n = o),
      if_neg (by omega : ¬ n = o + 1), if_neg (by omega : ¬ n = o + 2),
      if_neg (by omega : ¬ n = o + 3), if_neg (by omega : ¬ n = o + 4),
      if_neg (by omega : ¬ n = o + 5), if_neg (by omega : ¬ n = o + 6),
      if_neg (by omega : ¬ n = o + 7)]
  · intro s t u heq1 heq2
    have e1 := Flash_Write16_eq s 0 0xABCD (by omega) (by omega)
    have e2 := Flash_Write16_eq t 4 0x00FF (by omega) (by omega)
    rw [show ((0 : Nat) : Int) = (0 : Int) by norm_num] at e1
    rw [show ((4 : Nat) : Int) = (4 : Int) by norm_num] at e2
    rw [e1] at heq1
    rw [e2] at heq2
    injection heq1 with heq1
    injection heq2 with heq2
    subst heq1
    subst heq2
    exact Eq.trans
      (congrArg₂ (fun a b : Nat => a + 256 * b) rfl rfl)
      (show (205 : Nat) + 256 * 171 = 43981 by norm_num)

/-- Witness for C6: carrying out the two-write scenario on an entirely
erased sector; the intermediate and final sectors are spelled out and the
readback of offsets 0 and 1 yields `0xABCD`. -/
theorem flash_write_frame_witness :
    Flash_Write16 (fun _ => 255) 0 0xABCD =
        some (fun n => if n < 8 then
          (if n = 0 then 0xCD else if n = 1 then 0xAB else 255)
          else 255) ∧
      Flash_Write16 (fun n => if n < 8 then
          (if n = 0 then 0xCD else if n = 1 then 0xAB else 255) else 255)
          4 0x00FF =
        some (fun n => if n < 8 then
          (if n = 4 then 0xFF else if n = 5 then 0 else
            if n < 8 then
              (if n = 0 then 0xCD else if n = 1 then 0xAB else 255)
            else 255)
          else 255) ∧
      (fun n => if n < 8 then
          (if n = 4 then 0xFF else if n = 5 then 0 else
            if n < 8 then
              (if n = 0 then 0xCD else if n = 1 then 0xAB else 255)
            else 255)
          else 255) 0 +
        256 * (fun n => if n < 8 then
          (if n = 4 then 0xFF else if n = 5 then 0 else
            if n < 8 then
              (if n = 0 then 0xCD else if n = 1 then 0xAB else 255)
            else 255)
          else 255) 1 = 0xABCD := by
  refine ⟨?_, ?_, ?_⟩
  · rfl
  · rfl
  · exact flash_write_frame.2.2.2.2 (fun _ => 255) _ _ rfl rfl

/-- C10 — A successful multi-byte flash write stores its value in the
sector in little-endian byte order: after a width-`w` write of value `d`
(with `d` in range for the width) at in-bounds aligned offset `o`, the
byte at offset `o + k` is byte `k` of `d` counting from the least
significant byte, i.e. `d / 256^k % 256`. -/
theorem flash_write_little_endian :
    (∀ (s : Nat → Nat) (o d : Nat) (t : Nat → Nat), o + 2 ≤ 8 →
        o % 2 = 0 → d < 65536 → Flash_Write16 s (o : Int) d = some t →
        t o = d % 256 ∧ t (o + 1) = d / 256 % 256) ∧
    (∀ (s : Nat → Nat) (o d : Nat) (t : Nat → Nat), o + 4 ≤ 8 →
        o % 4 = 0 → d < 4294967296 →
        Flash_Write32 s (o : Int) d = some t →
        t o = d % 256 ∧ t (o + 1) = d / 256 % 256 ∧
          t (o + 2) = d / 65536 % 256 ∧ t (o + 3) = d / 16777216 % 256) ∧
    (∀ (s : Nat → Nat) (o d : Nat) (t : Nat → Nat), o + 8 ≤ 8 →
        o % 8 = 0 → d < 18446744073709551616 →
        Flash_Write64 s (o : Int) d = some t →
        t o = d % 256 ∧ t (o + 1) = d / 256 % 256 ∧
          t (o + 2) = d / 65536 % 256 ∧ t (o + 3) = d / 16777216 % 256 ∧
          t (o + 4) = d / 4294967296 % 256 ∧
          t (o + 5) = d / 1099511627776 % 256 ∧
          t (o + 6) = d / 281474976710656 % 256 ∧
          t (o + 7) = d / 72057594037927936 % 256) := by
  have hPP : ∀ (m : Nat → Nat) (n : Nat), n < 8 →
      ProgramPhraseEffect Flash_EraseEffect m n = m n := by
    intro m n hn
    simp only [ProgramPhraseEffect, FLASH_SIZE]
    rw [if_pos hn]
  refine ⟨?_, ?_, ?_⟩
  · intro s o d t ho hal hd heq
    rw [Flash_Write16_eq s o d ho hal] at heq
    injection heq with heq
    subst heq
    refine ⟨?_, ?_⟩
    · rw [hPP _ o (by omega)]
      rw [if_pos (rfl : o = o)]
      omega
    · rw [hPP _ (o + 1) (by omega)]
      rw [if_neg (by omega : ¬ o + 1 = o), if_pos rfl]
      omega
  · intro s o d t ho hal hd heq
    rw [Flash_Write32_eq s o d ho hal] at heq
    injection heq with heq
    subst heq
    refine ⟨?_, ?_, ?_, ?_⟩
    · rw [hPP _ o (by omega)]
      rw [if_pos (rfl : o = o)]
      omega
    · rw [hPP _ (o + 1) (by omega)]
      rw [if_neg (by omega : ¬ o + 1 = o), if_pos rfl]
      omega
    · rw [hPP _ (o + 2) (by omega)]
      rw [if_neg (by omega : ¬ o + 2 = o),
        if_neg (by omega : ¬ o + 2 = o + 1), if_pos rfl]
      omega
    · rw [hPP _ (o + 3) (by omega)]
      rw [if_neg (by omega : ¬ o + 3 = o),
        if_neg (by omega : ¬ o + 3 = o + 1),
        if_neg (by omega : ¬ o + 3 = o + 2), if_pos rfl]
      omega
  · intro s o d t ho hal hd heq
    rw [Flash_Write64_eq s o d ho hal] at heq
    injection heq with heq
    subst heq
    refine ⟨?_, ?_, ?_, ?_, ?_, ?_, ?_, ?_⟩
    · rw [hPP _ o (by omega)]
      rw [if_pos (rfl : o = o)]
      omega
    · rw [hPP _ (o + 1) (by omega)]
      rw [if_neg (by omega : ¬ o + 1 = o), if_pos rfl]
      omega
    · rw [hPP _ (o + 2) (by omega)]
      rw [if_neg (by omega : ¬ o + 2 = o),
        if_neg (by omega : ¬ o + 2 = o + 1), if_pos rfl]
      omega
    · rw [hPP _ (o + 3) (by omega)]
      rw [if_neg (by omega : ¬ o + 3 = o),
        if_neg (by omega : ¬ o + 3 = o + 1),
        if_neg (by omega : ¬ o + 3 = o + 2), if_pos rfl]
      omega
    · rw [hPP _ (o + 4) (by omega)]
      rw [if_neg (by omega : ¬ o + 4 = o),
        if_neg (by omega : ¬ o + 4 = o + 1),
        if_neg (by omega : ¬ o + 4 = o + 2),
        if_neg (by omega : ¬ o + 4 = o + 3), if_pos rfl]
      omega
    · rw [hPP _ (o + 5) (by omega)]
      rw [if_neg (by omega : ¬ o + 5 = o),
        if_neg (by omega : ¬ o + 5 = o + 1),
        if_neg (by omega : ¬ o + 5 = o + 2),
        if_neg (by omega : ¬ o + 5 = o + 3),
        if_neg (by omega : ¬ o + 5 = o + 4), if_pos rfl]
      omega
    · rw [hPP _ (o + 6) (by omega)]
      rw [if_neg (by omega : ¬ o + 6 = o),
        if_neg (by omega : ¬ o + 6 = o + 1),
        if_neg (by omega : ¬ o + 6 = o + 2),
        if_neg (by omega : ¬ o + 6 = o + 3),
        if_neg (by omega : ¬ o + 6 = o + 4),
        if_neg (by omega : ¬ o + 6 = o + 5), if_pos rfl]
      omega
    · rw [hPP _ (o + 7) (by omega)]
      rw [if_neg (by omega : ¬ o + 7 = o),
        if_neg (by omega : ¬ o + 7 = o + 1),
        if_neg (by omega : ¬ o + 7 = o + 2),
        if_neg (by omega : ¬ o + 7 = o + 3),
        if_neg (by omega : ¬ o + 7 = o + 4),
        if_neg (by omega : ¬ o + 7 = o + 5),
        if_neg (by omega : ¬ o + 7 = o + 6), if_pos rfl]
      omega

/-- Witness for C10: writing the 16-bit value `0x1234` at offset 2 places
the low byte `0x34` at offset 2 and the high byte `0x12` at offset 3. -/
theorem flash_write_little_endian_witness :
    (2 : Nat) + 2 ≤ 8 ∧ (2 : Nat) % 2 = 0 ∧ (0x1234 : Nat) < 65536 ∧
      Flash_Write16 (fun _ => 255) ((2 : Nat) : Int) 0x1234 =
        some (fun n => if n < 8 then
          (if n = 2 then 0x34 else if n = 3 then 0x12 else 255) else 255) ∧
      ((fun n => if n < 8 then
          (if n = 2 then 0x34 else if n = 3 then 0x12 else 255)
          else 255) 2 = 0x1234 % 256 ∧
        (fun n => if n < 8 then
          (if n = 2 then 0x34 else if n = 3 then 0x12 else 255)
          else 255) (2 + 1) = 0x1234 / 256 % 256) := by
  refine ⟨by norm_num, by norm_num, by norm_num, ?_, ?_⟩
  · rw [Flash_Write16_eq (fun _ => 255) 2 0x1234 (by norm_num) (by norm_num)]
    rfl
  · refine flash_write_little_endian.1 (fun _ => 255) 2 0x1234
      (fun n => if n < 8 then
        (if n = 2 then 0x34 else if n = 3 then 0x12 else 255) else 255)
      (by norm_num) (by norm_num) (by norm_num) ?_
    rw [Flash_Write16_eq (fun _ => 255) 2 0x1234 (by norm_num) (by norm_num)]
    rfl

end Firmware
